import Mathlib

/-!
Shallow embedding of the insert-size-plot scanner (`src/main.rs`): the BAM
byte-stream decoder (`BamReader::from_path`, `BamReader::read_into`), the
pair filter and statistics accumulator of `cli`, and the finalizing pass
that derives quantile cut points and the standard-deviation radicand.
Byte streams are lists of natural numbers (each < 256 for well-formed
input); machine integers are modelled as `Nat`/`Int`, with explicit
wrap-around where the code may overflow.
-/

namespace InsertSizePlot

/-- Errors arising while decoding the byte stream: a wrong magic number, a
read hitting end of stream, the `i32::abs` overflow panic, and exhaustion of
the fuel bounding the scan loop. -/
inductive DecodeErr where
  | badMagic
  | unexpectedEof
  | absOverflow
  | outOfFuel
deriving DecidableEq

/-- Read exactly `n` bytes from the stream, as `std::io::Read::read_exact`
does: end of stream before `n` bytes were obtained is `unexpectedEof`. -/
def readExact (n : Nat) (s : List Nat) : Except DecodeErr (List Nat × List Nat) :=
  if n ≤ s.length then .ok (s.take n, s.drop n) else .error .unexpectedEof

/-- Little-endian value of a byte list, least significant byte first. -/
def leVal (bs : List Nat) : Nat :=
  bs.foldr (fun b acc => b + 256 * acc) 0

/-- Read one unsigned byte (`read_u8`). -/
def readU8 (s : List Nat) : Except DecodeErr (Nat × List Nat) :=
  (readExact 1 s).map (fun p => (leVal p.1, p.2))

/-- Read a little-endian unsigned 16-bit value (`read_u16`). -/
def readU16 (s : List Nat) : Except DecodeErr (Nat × List Nat) :=
  (readExact 2 s).map (fun p => (leVal p.1, p.2))

/-- Read a little-endian unsigned 32-bit value (`read_u32`). -/
def readU32 (s : List Nat) : Except DecodeErr (Nat × List Nat) :=
  (readExact 4 s).map (fun p => (leVal p.1, p.2))

/-- Reinterpret a 32-bit unsigned value as a two's-complement signed one. -/
def toI32 (u : Nat) : Int :=
  if u < 2 ^ 31 then (u : Int) else (u : Int) - 2 ^ 32

/-- Read a little-endian signed 32-bit value (`read_i32`). -/
def readI32 (s : List Nat) : Except DecodeErr (Int × List Nat) :=
  (readU32 s).map (fun p => (toI32 p.1, p.2))

/-- Skip `n` bytes: a `read_exact` into a sink buffer of size `n`. -/
def skip (n : Nat) (s : List Nat) : Except DecodeErr (List Nat) :=
  (readExact n s).map (fun p => p.2)

/-- Rust `as usize` on a signed value: two's-complement reinterpretation
into the 64-bit unsigned range. -/
def intAsUsize (v : Int) : Nat :=
  (v % (2 ^ 64 : Int)).toNat

/-- Skip the reference dictionary: each of the `n_ref` entries is a `u32`
name length `l` followed by `l + 4` bytes read as one block (the name plus
the trailing 4-byte reference length, `block_size` in the source). -/
def skipRefs : Nat → List Nat → Except DecodeErr (List Nat)
  | 0, s => .ok s
  | n + 1, s => do
    let (l, s) ← readU32 s
    let s ← skip (l + 4) s
    skipRefs n s

/-- `BamReader::from_path` after decompression: check the 4-byte magic
`BAM\1`, skip the length-prefixed header text, skip the reference
dictionary, and return the stream positioned at the first record. -/
def from_path (s : List Nat) : Except DecodeErr (List Nat) := do
  let (magic, s) ← readExact 4 s
  if magic ≠ [66, 65, 77, 1] then
    .error .badMagic
  else
    let (l_text, s) ← readI32 s
    let s ← skip (intAsUsize l_text) s
    let (n_ref, s) ← readU32 s
    skipRefs n_ref s

/-- Compact read record: the four fields `cli` consumes. -/
structure Record where
  ref_id : Int
  mate_ref_id : Int
  tlen : Int
  flag : Nat
deriving DecidableEq

/-- `Record::default()`: all fields zero. -/
def Record.default : Record := ⟨0, 0, 0, 0⟩

/-- Body of `BamReader::read_into` after the `block_size` prefix was read:
decode the fixed fields in wire order (updating the record as each setter
runs), skip the variable regions, then skip the remaining bytes of
`block_size` as the auxiliary blob. The remainder is the `usize`
subtraction `rem_size - (32 + l_name + l_cigar*4 + (l_seq+1)/2 + l_seq)`,
which wraps modulo `2^64` on underflow. -/
def read_body (block_size : Nat) (r : Record) (s : List Nat) :
    Except DecodeErr (Record × List Nat) := do
  let (ref_id, s) ← readI32 s
  let r : Record := { r with ref_id := ref_id }
  let s ← skip 4 s
  let (l_name, s) ← readU8 s
  let s ← skip 1 s
  let s ← skip 2 s
  let (l_cigar, s) ← readU16 s
  let (flag, s) ← readU16 s
  let r : Record := { r with flag := flag }
  let (l_seq, s) ← readU32 s
  let (mate_ref_id, s) ← readI32 s
  let r : Record := { r with mate_ref_id := mate_ref_id }
  let s ← skip 4 s
  let (tlen, s) ← readI32 s
  let r : Record := { r with tlen := tlen }
  let s ← skip l_name s
  let s ← skip (4 * l_cigar) s
  let s ← skip ((l_seq + 1) / 2) s
  let s ← skip l_seq s
  let rem := (block_size + 2 ^ 64 - (32 + l_name + l_cigar * 4 + (l_seq + 1) / 2 + l_seq)) % 2 ^ 64
  let s ← skip rem s
  .ok (r, s)

/-- `BamReader::read_into`: read the `u32` `block_size`; a failure of kind
`UnexpectedEof` there is clean termination `(false, ..)`, any other error is
returned; otherwise decode the record body and return `(true, ..)`. -/
def read_into (r : Record) (s : List Nat) :
    Except DecodeErr (Bool × Record × List Nat) :=
  match readU32 s with
  | .error e => if e = .unexpectedEof then .ok (false, r, s) else .error e
  | .ok (block_size, s1) =>
    (read_body block_size r s1).map (fun p => (true, p.1, p.2))

/-- Read is paired, first in pair, properly mapped. -/
def P_FLAG : Nat := 0x1 + 0x2 + 0x40

/-- Read is secondary or supplementary. -/
def N_FLAG : Nat := 0x100 + 0x800

/-- Condition under which the scan loop of `cli` skips a record
(`continue`): the flag misses a required bit, has a forbidden bit, or the
two reference ids differ. -/
def skipRecord (r : Record) : Bool :=
  r.flag &&& P_FLAG != P_FLAG || r.flag &&& N_FLAG != 0 || r.ref_id != r.mate_ref_id

/-- Checked `i32::abs` (`if self < 0 { -self } else { self }`): the absolute
value of the minimal 32-bit integer is not representable, and the negation
inside `abs` panics there. -/
def i32_abs (v : Int) : Option Int :=
  if v = -(2 ^ 31) then none else some (if v < 0 then -v else v)

/-- Running aggregates of the scan loop in `cli`: the histogram `data` and
the `Summary` fields the loop mutates. During the loop the `f64` fields
`all_mean` and `mean` hold the running sums of the integer insert sizes,
which they represent exactly; they are modelled by those sums and divided by
the counts only in `finalizeSummary`. -/
structure Aggregates where
  data : List Nat
  all_count : Nat
  all_mean : Nat
  count : Nat
  mean : Nat
deriving DecidableEq

/-- Aggregates before the loop: histogram `vec![0; upper + 1]`, all `Summary`
fields zero. -/
def initAgg (upper : Nat) : Aggregates :=
  ⟨List.replicate (upper + 1) 0, 0, 0, 0, 0⟩

/-- One iteration of the scan loop body on a decoded record: skip it unless
the filter passes; otherwise let `t = tlen.abs() as usize` and fold it into
the aggregates, bounding the histogram update by `upper`. `none` models the
`i32::abs` panic. -/
def accumulate (upper : Nat) (agg : Aggregates) (r : Record) : Option Aggregates :=
  if skipRecord r then some agg
  else
    match i32_abs r.tlen with
    | none => none
    | some a =>
      let tlen := a.toNat
      let agg : Aggregates :=
        { agg with all_mean := agg.all_mean + tlen, all_count := agg.all_count + 1 }
      if upper < tlen then some agg
      else some { agg with
        data := agg.data.set tlen (agg.data.getD tlen 0 + 1),
        mean := agg.mean + tlen,
        count := agg.count + 1 }

/-- Fold a list of decoded records through `accumulate`, starting from the
empty aggregates; `none` when some record panics the accumulator. -/
def processRecords (upper : Nat) (rs : List Record) : Option Aggregates :=
  rs.foldlM (accumulate upper) (initAgg upper)

/-- Quantile thresholds of `cli`: `count` is cast to `f64`, multiplied by
`0.25`, `0.5`, `0.75`, and truncated back to an integer. Since `count` fits
32 bits, every product is exact in `f64`, so the thresholds are the integer
divisions `count/4`, `count/2`, `count*3/4`, each paired with the cut-point
slot initialized to `0`. -/
def quantInit (count : Nat) : List (Nat × Nat) :=
  [(count / 4, 0), (count / 2, 0), (count * 3 / 4, 0)]

/-- State of the single finalizing pass over the histogram in `cli`: the
quantile bookkeeping (`quantiles`, index `ri`, `flag`, cumulative `accum`),
the running standard-deviation accumulator `std`, and the largest bin
height. -/
structure ScanState where
  quantiles : List (Nat × Nat)
  ri : Nat
  flag : Bool
  accum : Nat
  std : ℚ
  height_max : Nat
deriving DecidableEq

/-- Body of the `for_each` over `data.iter().enumerate()` in `cli`, for the
pair `(k, v)` of bin index and bin count: add `v` to `accum`; if `flag` is
set, compare `accum` with the current threshold, record `k` and advance `ri`
on strict excess, and refresh `flag`; always add `(k - mean)^2` to `std` and
update `height_max`. -/
def scanStep (mean : ℚ) (st : ScanState) (kv : Nat × Nat) : ScanState :=
  let k := kv.1
  let v := kv.2
  let accum := st.accum + v
  let (quantiles, ri) :=
    if st.flag then
      let index := (st.quantiles.getD st.ri (0, 0)).1
      if index < accum then (st.quantiles.set st.ri (index, k), st.ri + 1)
      else (st.quantiles, st.ri)
    else (st.quantiles, st.ri)
  let flag := if st.flag then decide (ri < quantiles.length) else st.flag
  { quantiles := quantiles, ri := ri, flag := flag, accum := accum,
    std := st.std + ((k : ℚ) - mean) ^ 2,
    height_max := Nat.max v st.height_max }

/-- The finalizing pass of `cli` over the whole histogram. -/
def finalizeScan (data : List Nat) (count : Nat) (mean : ℚ) : ScanState :=
  data.enum.foldl (scanStep mean) ⟨quantInit count, 0, true, 0, 0, 0⟩

/-- Values `cli` reports after the scan: the `Summary` fields plus the
histogram it charts. `std_sq` is the radicand `sum.std / count` whose
square root (`powf(0.5)`) the program prints as the standard deviation. -/
structure RunOut where
  data : List Nat
  all_count : Nat
  all_mean : ℚ
  count : Nat
  mean : ℚ
  std_sq : ℚ
  q1 : Nat
  q2 : Nat
  q3 : Nat
deriving DecidableEq

/-- Post-loop computation of `cli`: divide the accumulated sums by the
counts, run the finalizing pass, and read the three quantile cut points out
of the `quantiles` vector. -/
def finalizeSummary (agg : Aggregates) : RunOut :=
  let all_mean := (agg.all_mean : ℚ) / (agg.all_count : ℚ)
  let mean := (agg.mean : ℚ) / (agg.count : ℚ)
  let st := finalizeScan agg.data agg.count mean
  { data := agg.data, all_count := agg.all_count, all_mean := all_mean,
    count := agg.count, mean := mean,
    std_sq := st.std / (agg.count : ℚ),
    q1 := (st.quantiles.getD 0 (0, 0)).2,
    q2 := (st.quantiles.getD 1 (0, 0)).2,
    q3 := (st.quantiles.getD 2 (0, 0)).2 }

/-- The record-reading loop of `cli`: call `read_into` until it returns
`false` or fails, folding each decoded record through `accumulate`. Fuel
bounds the iteration count; a successful `read_into` consumes at least 36
bytes of the stream, so fuel `s.length + 1` never runs out. -/
def scanLoop (upper : Nat) :
    Nat → List Nat → Record → Aggregates → Except DecodeErr Aggregates
  | 0, _, _, _ => .error .outOfFuel
  | fuel + 1, s, r, agg =>
    match read_into r s with
    | .error e => .error e
    | .ok (false, _, _) => .ok agg
    | .ok (true, r1, s1) =>
      match accumulate upper agg r1 with
      | none => .error .absOverflow
      | some agg1 => scanLoop upper fuel s1 r1 agg1

/-- Scanning part of the `cli` pipeline on a decompressed byte stream: open
the header with `from_path` and run the record loop to completion. -/
def cliAgg (upper : Nat) (bytes : List Nat) : Except DecodeErr Aggregates := do
  let s ← from_path bytes
  scanLoop upper (s.length + 1) s Record.default (initAgg upper)

/-- The `cli` pipeline: scan the stream, then finalize the summary. -/
def cli (upper : Nat) (bytes : List Nat) : Except DecodeErr RunOut :=
  (cliAgg upper bytes).map finalizeSummary

/-- Standard-deviation radicand as the specification words it: the
histogram-weighted population variance
`(Σ over bins k of (k - mean)^2 * histogram[k]) / count`. Stated from the
spec, for comparison against the code's `std_sq`. -/
def specStdSq (data : List Nat) (count : Nat) (mean : ℚ) : ℚ :=
  (data.enum.foldl (fun acc kv => acc + ((kv.1 : ℚ) - mean) ^ 2 * kv.2) 0) /
    (count : ℚ)

/-- Reference recursion for the quantile component of the finalizing pass:
walk the bins from absolute index `n` with running cumulative count `acc`,
and whenever the cumulative count strictly exceeds the threshold of slot `i`
of `qs`, record the current index there and move to the next slot; stop
updating once every slot is filled. -/
def qref : List Nat → Nat → Nat → List (Nat × Nat) → Nat → List (Nat × Nat)
  | [], _, _, qs, _ => qs
  | v :: bs, n, acc, qs, i =>
    if i < qs.length then
      if (qs.getD i (0, 0)).1 < acc + v then
        qref bs (n + 1) (acc + v) (qs.set i ((qs.getD i (0, 0)).1, n)) (i + 1)
      else qref bs (n + 1) (acc + v) qs i
    else qs

/-- Search of the specification for one quantile cut point: the first bin,
from absolute index `n` on and with cumulative count `acc` before it, whose
addition makes the running cumulative count strictly exceed the threshold
`t`; returns that index, the cumulative count through it, and the remaining
bins, so the next threshold can be searched strictly after it. -/
def specFind : List Nat → Nat → Nat → Nat → Option (Nat × Nat × List Nat)
  | [], _, _, _ => none
  | v :: bs, n, acc, t =>
    if t < acc + v then some (n, acc + v, bs)
    else specFind bs (n + 1) (acc + v) t

/-- Quantile cut points as the specification describes them: thresholds
`count/4`, `count/2`, `count*3/4` are consumed strictly in order, each
matched by the first bin, strictly after the previous match, at which the
running cumulative count strictly exceeds it; an unmatched threshold (and
every threshold after it) is reported unmatched. -/
def specQuantilesOpt (data : List Nat) (count : Nat) :
    Option Nat × Option Nat × Option Nat :=
  match specFind data 0 0 (count / 4) with
  | none => (none, none, none)
  | some (k1, a1, rest1) =>
    match specFind rest1 (k1 + 1) a1 (count / 2) with
    | none => (some k1, none, none)
    | some (k2, a2, rest2) =>
      match specFind rest2 (k2 + 1) a2 (count * 3 / 4) with
      | none => (some k1, some k2, none)
      | some (k3, _, _) => (some k1, some k2, some k3)

/-- The spec-side quantile triple with unmatched cut points defaulted to 0,
as the program leaves unassigned slots at their initial 0. -/
def specQuantiles (data : List Nat) (count : Nat) : Nat × Nat × Nat :=
  let q := specQuantilesOpt data count
  (q.1.getD 0, q.2.1.getD 0, q.2.2.getD 0)

/-- Little-endian encoding of `n` into `len` bytes. -/
def leBytes : Nat → Nat → List Nat
  | 0, _ => []
  | len + 1, n => n % 256 :: leBytes len (n / 256)

/-- Byte encoding of one reference-dictionary entry: a `u32` name length
`l` followed by its `l + 4` content bytes. -/
def encRefEntry (e : Nat × List Nat) : List Nat :=
  leBytes 4 e.1 ++ e.2

/-- Byte encoding of the container header after the magic: the header-text
length and text, the reference count, and the reference entries. -/
def encHeaderTail (text : List Nat) (entries : List (Nat × List Nat)) : List Nat :=
  leBytes 4 text.length ++ text ++ leBytes 4 entries.length ++
    (entries.map encRefEntry).flatten

/-- Byte encoding of a minimal alignment record: `block_size` 33, zero
reference ids and positions, name length 1, no CIGAR operations, empty
sequence, flag `0x43`, the given four little-endian template-length bytes,
and a single name byte. -/
def encRecord (tl : List Nat) : List Nat :=
  [33, 0, 0, 0] ++ [0, 0, 0, 0] ++ [0, 0, 0, 0] ++ [1] ++ [0] ++ [0, 0] ++
    [0, 0] ++ [67, 0] ++ [0, 0, 0, 0] ++ [0, 0, 0, 0] ++ [0, 0, 0, 0] ++ tl ++ [0]

/-- Well-formed container with a zero-length header text, exactly one
reference-dictionary entry (name length 2, hence 6 content bytes), and the
given record bytes. -/
def encContainer (records : List (List Nat)) : List Nat :=
  [66, 65, 77, 1] ++ encHeaderTail [] [(2, [97, 0, 100, 0, 0, 0])] ++ records.flatten

/-- Round-trip input of the specification: three records with flag `0x43`,
equal reference ids, and template lengths 100, 200, 300. -/
def rtInput : List Nat :=
  encContainer [encRecord [100, 0, 0, 0], encRecord [200, 0, 0, 0], encRecord [44, 1, 0, 0]]

/-- Input whose whole qualified mass sits in the last histogram bin: four
records with template length 1, to be scanned with `upper = 1`. -/
def qInput : List Nat :=
  encContainer (List.replicate 4 (encRecord [1, 0, 0, 0]))

/-- Input with a single qualified record of template length 0, to be scanned
with `upper = 1`. -/
def sdInput : List Nat :=
  encContainer [encRecord [0, 0, 0, 0]]

/-- Invariant of the running aggregates: the histogram keeps its size, its
entries total the bounded count, and the bounded count never exceeds the
total count. -/
def aggInv (upper : Nat) (agg : Aggregates) : Prop :=
  agg.data.length = upper + 1 ∧ agg.data.sum = agg.count ∧ agg.count ≤ agg.all_count

deriving instance DecidableEq for Except

set_option maxRecDepth 4000

/-- Rust checked `abs` followed by `as usize` yields the natural absolute
value on every representable argument. -/
lemma if_neg_toNat_natAbs (v : Int) : (if v < 0 then -v else v).toNat = v.natAbs := by
  split <;> omega

/-- The skip condition is the negation of the three-way filter. -/
lemma skipRecord_eq_false_iff (r : Record) :
    skipRecord r = false ↔
      r.flag &&& P_FLAG = P_FLAG ∧ r.flag &&& N_FLAG = 0 ∧ r.ref_id = r.mate_ref_id := by
  simp [skipRecord, Bool.or_eq_false_iff, bne_eq_false_iff_eq, and_assoc]

/-- C3: a decoded record is folded into the running aggregates iff its flag
contains all of `0x43`, none of `0x900`, and its reference id equals its
mate reference id; a secondary or supplementary record is always skipped,
and a skipped record leaves the aggregates unchanged. -/
theorem record_filter_characterization (r : Record) :
    (skipRecord r = false ↔
      r.flag &&& 0x43 = 0x43 ∧ r.flag &&& 0x900 = 0 ∧ r.ref_id = r.mate_ref_id) ∧
    (r.flag &&& 0x100 ≠ 0 ∨ r.flag &&& 0x800 ≠ 0 → skipRecord r = true) ∧
    (∀ upper agg, skipRecord r = true → accumulate upper agg r = some agg) := by
  have hiff := skipRecord_eq_false_iff r
  refine ⟨hiff, ?_, ?_⟩
  · intro hbit
    cases hsk : skipRecord r with
    | true => rfl
    | false =>
      exfalso
      have hn : r.flag &&& N_FLAG = 0 := (hiff.mp hsk).2.1
      rcases hbit with hb | hb
      · apply hb
        have hsub : N_FLAG &&& 0x100 = 0x100 := by decide
        calc r.flag &&& 0x100 = r.flag &&& (N_FLAG &&& 0x100) := by rw [hsub]
          _ = r.flag &&& N_FLAG &&& 0x100 := (Nat.land_assoc r.flag N_FLAG 0x100).symm
          _ = 0 &&& 0x100 := by rw [hn]
          _ = 0 := by decide
      · apply hb
        have hsub : N_FLAG &&& 0x800 = 0x800 := by decide
        calc r.flag &&& 0x800 = r.flag &&& (N_FLAG &&& 0x800) := by rw [hsub]
          _ = r.flag &&& N_FLAG &&& 0x800 := (Nat.land_assoc r.flag N_FLAG 0x800).symm
          _ = 0 &&& 0x800 := by rw [hn]
          _ = 0 := by decide
  · intro upper agg hsk
    simp [accumulate, hsk]

/-- Witness for `record_filter_characterization`: a secondary record with
flag `0x143` is skipped, and skipping leaves the aggregates untouched. -/
theorem record_filter_characterization_witness :
    skipRecord ⟨0, 0, 50, 0x143⟩ = true ∧
      accumulate 5 (initAgg 5) ⟨0, 0, 50, 0x143⟩ = some (initAgg 5) := by
  refine ⟨?_, ?_⟩
  · exact (record_filter_characterization ⟨0, 0, 50, 0x143⟩).2.1 (Or.inl (by decide))
  · exact (record_filter_characterization ⟨0, 0, 50, 0x143⟩).2.2 5 (initAgg 5)
      ((record_filter_characterization ⟨0, 0, 50, 0x143⟩).2.1 (Or.inl (by decide)))

/-- C10: a filtered-in record whose template length is the minimal 32-bit
integer panics the accumulator (`i32::abs` has no representable result);
for every other representable value the accumulated magnitude is exactly
the absolute value. -/
theorem abs_min_panics :
    (∀ upper agg (r : Record), skipRecord r = false → r.tlen = -(2 ^ 31) →
      accumulate upper agg r = none) ∧
    (∀ v : Int, -(2 ^ 31) ≤ v → v < 2 ^ 31 → v ≠ -(2 ^ 31) →
      i32_abs v = some (v.natAbs : Int) ∧ (i32_abs v).map Int.toNat = some v.natAbs) := by
  constructor
  · intro upper agg r hsk htl
    have hnone : i32_abs r.tlen = none := by
      rw [htl]; unfold i32_abs; rw [if_pos rfl]
    simp [accumulate, hsk, hnone]
  · intro v _ _ hne
    have habs : i32_abs v = some (if v < 0 then -v else v) := by
      unfold i32_abs; rw [if_neg hne]
    rw [habs]
    constructor
    · congr 1
      split <;> omega
    · simp [if_neg_toNat_natAbs]

/-- Witness for `abs_min_panics`: the minimal value panics a concrete
accumulator state, and `-100` accumulates as magnitude `100`. -/
theorem abs_min_panics_witness :
    accumulate 500 (initAgg 500) ⟨0, 0, -(2 ^ 31), 0x43⟩ = none ∧
      i32_abs (-100) = some ((-100 : Int).natAbs : Int) := by
  refine ⟨?_, ?_⟩
  · exact abs_min_panics.1 500 (initAgg 500) ⟨0, 0, -(2 ^ 31), 0x43⟩ (by decide) rfl
  · exact (abs_min_panics.2 (-100) (by decide) (by decide) (by decide)).1

/-- C4: an accepted record with magnitude `t = |template_length|` always
bumps `all_count` and the all-pairs sum; when `t <= upper` it additionally
bumps `count`, the bounded sum, and bin `t` of the histogram; when
`t > upper` it leaves all three unchanged. -/
theorem accumulate_accepted (upper : Nat) (agg : Aggregates) (r : Record)
    (hpass : skipRecord r = false) (hmin : r.tlen ≠ -(2 ^ 31)) :
    (accumulate upper agg r).map Aggregates.all_count = some (agg.all_count + 1) ∧
    (accumulate upper agg r).map Aggregates.all_mean = some (agg.all_mean + r.tlen.natAbs) ∧
    (r.tlen.natAbs ≤ upper →
      (accumulate upper agg r).map Aggregates.count = some (agg.count + 1) ∧
      (accumulate upper agg r).map Aggregates.mean = some (agg.mean + r.tlen.natAbs) ∧
      (accumulate upper agg r).map Aggregates.data =
        some (agg.data.set r.tlen.natAbs (agg.data.getD r.tlen.natAbs 0 + 1))) ∧
    (upper < r.tlen.natAbs →
      (accumulate upper agg r).map Aggregates.count = some agg.count ∧
      (accumulate upper agg r).map Aggregates.mean = some agg.mean ∧
      (accumulate upper agg r).map Aggregates.data = some agg.data) := by
  have habs : i32_abs r.tlen = some (if r.tlen < 0 then -r.tlen else r.tlen) := by
    unfold i32_abs; rw [if_neg hmin]
  by_cases hup : upper < r.tlen.natAbs
  · simp [accumulate, hpass, habs, if_neg_toNat_natAbs, hup, Nat.not_le.mpr hup]
  · simp [accumulate, hpass, habs, if_neg_toNat_natAbs, hup, Nat.not_lt.mp hup]

/-- Witness for `accumulate_accepted`: a record of template length `-100`
with `upper = 500` bumps all four aggregates and bin 100. -/
theorem accumulate_accepted_witness :
    (accumulate 500 (initAgg 500) ⟨0, 0, -100, 0x43⟩).map Aggregates.all_count = some 1 ∧
      (accumulate 500 (initAgg 500) ⟨0, 0, -100, 0x43⟩).map Aggregates.count = some 1 := by
  refine ⟨?_, ?_⟩
  · exact (accumulate_accepted 500 (initAgg 500) ⟨0, 0, -100, 0x43⟩
      (by decide) (by decide)).1
  · exact ((accumulate_accepted 500 (initAgg 500) ⟨0, 0, -100, 0x43⟩
      (by decide) (by decide)).2.2.1 (by decide)).1

/-- Inversion of a successful exact read: the rest is the dropped stream and
the stream was long enough. -/
lemma readExact_ok_inv {n : Nat} {s bs rest : List Nat}
    (h : readExact n s = .ok (bs, rest)) : rest = s.drop n ∧ n ≤ s.length := by
  unfold readExact at h
  split at h
  · cases h; exact ⟨rfl, by assumption⟩
  · cases h

/-- Inversion of a successful `read_u32`. -/
lemma readU32_ok_inv {s : List Nat} {v : Nat} {rest : List Nat}
    (h : readU32 s = .ok (v, rest)) : rest = s.drop 4 ∧ 4 ≤ s.length := by
  unfold readU32 at h
  rcases he : readExact 4 s with e | ⟨bs, rest1⟩ <;> rw [he] at h <;> cases h
  exact readExact_ok_inv he

/-- Inversion of a successful `read_u16`. -/
lemma readU16_ok_inv {s : List Nat} {v : Nat} {rest : List Nat}
    (h : readU16 s = .ok (v, rest)) : rest = s.drop 2 ∧ 2 ≤ s.length := by
  unfold readU16 at h
  rcases he : readExact 2 s with e | ⟨bs, rest1⟩ <;> rw [he] at h <;> cases h
  exact readExact_ok_inv he

/-- Inversion of a successful `read_u8`. -/
lemma readU8_ok_inv {s : List Nat} {v : Nat} {rest : List Nat}
    (h : readU8 s = .ok (v, rest)) : rest = s.drop 1 ∧ 1 ≤ s.length := by
  unfold readU8 at h
  rcases he : readExact 1 s with e | ⟨bs, rest1⟩ <;> rw [he] at h <;> cases h
  exact readExact_ok_inv he

/-- Inversion of a successful `read_i32`. -/
lemma readI32_ok_inv {s : List Nat} {v : Int} {rest : List Nat}
    (h : readI32 s = .ok (v, rest)) : rest = s.drop 4 ∧ 4 ≤ s.length := by
  unfold readI32 at h
  rcases he : readU32 s with e | ⟨u, rest1⟩ <;> rw [he] at h <;> cases h
  exact readU32_ok_inv he

/-- Inversion of a successful skip. -/
lemma skip_ok_inv {n : Nat} {s s1 : List Nat}
    (h : skip n s = .ok s1) : s1 = s.drop n ∧ n ≤ s.length := by
  unfold skip at h
  rcases he : readExact n s with e | ⟨bs, rest1⟩ <;> rw [he] at h <;> cases h
  exact readExact_ok_inv he

/-- A record body only decodes when at least the 32 fixed bytes that follow
the length prefix are present. -/
lemma read_body_ok_length {bs : Nat} {r : Record} {s : List Nat} {p : Record × List Nat}
    (h : read_body bs r s = .ok p) : 32 ≤ s.length := by
  unfold read_body at h
  simp only [bind, Except.bind] at h
  rcases h1 : readI32 s with e | ⟨v1, s1⟩ <;> rw [h1] at h <;> dsimp only at h
  · exact Except.noConfusion h
  obtain ⟨hs1, hl1⟩ := readI32_ok_inv h1
  rcases h2 : skip 4 s1 with e | s2 <;> rw [h2] at h <;> dsimp only at h
  · exact Except.noConfusion h
  obtain ⟨hs2, hl2⟩ := skip_ok_inv h2
  rcases h3 : readU8 s2 with e | ⟨v3, s3⟩ <;> rw [h3] at h <;> dsimp only at h
  · exact Except.noConfusion h
  obtain ⟨hs3, hl3⟩ := readU8_ok_inv h3
  rcases h4 : skip 1 s3 with e | s4 <;> rw [h4] at h <;> dsimp only at h
  · exact Except.noConfusion h
  obtain ⟨hs4, hl4⟩ := skip_ok_inv h4
  rcases h5 : skip 2 s4 with e | s5 <;> rw [h5] at h <;> dsimp only at h
  · exact Except.noConfusion h
  obtain ⟨hs5, hl5⟩ := skip_ok_inv h5
  rcases h6 : readU16 s5 with e | ⟨v6, s6⟩ <;> rw [h6] at h <;> dsimp only at h
  · exact Except.noConfusion h
  obtain ⟨hs6, hl6⟩ := readU16_ok_inv h6
  rcases h7 : readU16 s6 with e | ⟨v7, s7⟩ <;> rw [h7] at h <;> dsimp only at h
  · exact Except.noConfusion h
  obtain ⟨hs7, hl7⟩ := readU16_ok_inv h7
  rcases h8 : readU32 s7 with e | ⟨v8, s8⟩ <;> rw [h8] at h <;> dsimp only at h
  · exact Except.noConfusion h
  obtain ⟨hs8, hl8⟩ := readU32_ok_inv h8
  rcases h9 : readI32 s8 with e | ⟨v9, s9⟩ <;> rw [h9] at h <;> dsimp only at h
  · exact Except.noConfusion h
  obtain ⟨hs9, hl9⟩ := readI32_ok_inv h9
  rcases h10 : skip 4 s9 with e | s10 <;> rw [h10] at h <;> dsimp only at h
  · exact Except.noConfusion h
  obtain ⟨hs10, hl10⟩ := skip_ok_inv h10
  rcases h11 : readI32 s10 with e | ⟨v11, s11⟩ <;> rw [h11] at h <;> dsimp only at h
  · exact Except.noConfusion h
  obtain ⟨hs11, hl11⟩ := readI32_ok_inv h11
  subst hs1 hs2 hs3 hs4 hs5 hs6 hs7 hs8 hs9 hs10
  simp only [List.length_drop] at hl2 hl3 hl4 hl5 hl6 hl7 hl8 hl9 hl10 hl11
  omega

/-- C2 (amended): the per-record decode reports clean termination exactly
when fewer than 4 bytes remain where the length prefix is read — whether
zero or a partial 1 to 3 bytes — and end-of-stream within the 32 fixed body
bytes of a record is a fatal error. -/
theorem read_into_termination (r : Record) (s : List Nat) :
    (read_into r s = .ok (false, r, s) ↔ s.length < 4) ∧
    (4 ≤ s.length → s.length < 36 → ∃ e, read_into r s = .error e) := by
  constructor
  · constructor
    · intro h
      by_contra hlen
      rw [Nat.not_lt] at hlen
      unfold read_into readU32 readExact at h
      rw [if_pos hlen] at h
      simp only [Except.map] at h
      cases hb : read_body (leVal (s.take 4)) r (s.drop 4) with
      | ok p => rw [hb] at h; cases h
      | error e => rw [hb] at h; cases h
    · intro hlen
      unfold read_into readU32 readExact
      rw [if_neg (by omega : ¬ 4 ≤ s.length)]
      simp [Except.map]
  · intro h4 h36
    unfold read_into readU32 readExact
    rw [if_pos h4]
    simp only [Except.map]
    cases hb : read_body (leVal (s.take 4)) r (s.drop 4) with
    | ok p =>
      exfalso
      have := read_body_ok_length hb
      rw [List.length_drop] at this
      omega
    | error e => exact ⟨e, rfl⟩

/-- Counterexample to C2 as stated: a stream holding exactly one byte is a
partial length-prefix read ending at end-of-stream, yet the decoder reports
clean termination instead of a fatal error. -/
theorem read_into_partial_prefix_not_fatal :
    read_into Record.default [1] = .ok (false, Record.default, [1]) ∧ [1] ≠ ([] : List Nat) := by
  exact ⟨by decide, by decide⟩

/-- Witness for `read_into_termination`: a 10-byte stream (end-of-stream
inside the fixed record body) fails with a fatal error. -/
theorem read_into_termination_witness :
    ∃ e, read_into Record.default (List.replicate 10 0) = .error e :=
  (read_into_termination Record.default (List.replicate 10 0)).2 (by decide) (by decide)

/-- Setting bin `i` of a histogram to its own value plus one raises the
total by one. -/
lemma sum_set_getD_add_one (l : List Nat) : ∀ i : Nat, i < l.length →
    (l.set i (l.getD i 0 + 1)).sum = l.sum + 1 := by
  induction l with
  | nil => intro i h; simp at h
  | cons x xs ih =>
    intro i h
    cases i with
    | zero => simp [List.getD_cons_zero]; omega
    | succ n =>
      simp only [List.set_cons_succ, List.getD_cons_succ, List.sum_cons]
      rw [ih n (by simpa using h)]
      omega

/-- One accumulator step preserves the aggregate invariant. -/
lemma accumulate_inv {upper : Nat} {agg agg1 : Aggregates} {r : Record}
    (h : accumulate upper agg r = some agg1) (hinv : aggInv upper agg) :
    aggInv upper agg1 := by
  unfold accumulate at h
  by_cases hsk : skipRecord r = true
  · rw [if_pos hsk] at h
    cases h
    exact hinv
  · rw [if_neg hsk] at h
    rcases habs : i32_abs r.tlen with _ | a <;> rw [habs] at h <;> dsimp only at h
    · cases h
    obtain ⟨hlen, hsum, hle⟩ := hinv
    by_cases hup : upper < a.toNat
    · rw [if_pos hup] at h
      cases h
      exact ⟨hlen, hsum, Nat.le_succ_of_le hle⟩
    · rw [if_neg hup] at h
      cases h
      have hbound : a.toNat < agg.data.length := by omega
      refine ⟨?_, ?_, Nat.succ_le_succ hle⟩
      · simpa [List.length_set] using hlen
      · rw [sum_set_getD_add_one agg.data a.toNat hbound, hsum]

/-- Folding any record list through the accumulator preserves the aggregate
invariant. -/
lemma foldlM_accumulate_inv {upper : Nat} : ∀ (rs : List Record) (agg : Aggregates),
    aggInv upper agg → ∀ {agg1 : Aggregates},
      List.foldlM (accumulate upper) agg rs = some agg1 → aggInv upper agg1 := by
  intro rs
  induction rs with
  | nil =>
    intro agg hinv agg1 h
    simp only [List.foldlM_nil] at h
    cases h
    exact hinv
  | cons r rs ih =>
    intro agg hinv agg1 h
    rw [List.foldlM_cons] at h
    rcases ha : accumulate upper agg r with _ | agg2 <;> rw [ha] at h <;>
      simp only [Option.bind_eq_bind, Option.none_bind, Option.some_bind] at h
    · cases h
    · exact ih agg2 (accumulate_inv ha hinv) h

/-- C6: after any prefix of the decoded record stream is folded in, the
histogram entries sum to exactly `count`, and `count <= all_count`. -/
theorem histogram_sum_invariant (upper : Nat) (rs : List Record) (n : Nat)
    (agg1 : Aggregates) (h : processRecords upper (rs.take n) = some agg1) :
    agg1.data.sum = agg1.count ∧ agg1.count ≤ agg1.all_count := by
  have hinit : aggInv upper (initAgg upper) :=
    ⟨by simp [initAgg], by simp [initAgg], Nat.le_refl 0⟩
  have hres := foldlM_accumulate_inv (rs.take n) (initAgg upper) hinit h
  exact ⟨hres.2.1, hres.2.2⟩

/-- Witness for `histogram_sum_invariant`: the one-record prefix of a
single-record stream with insert size 100 and `upper = 500`. -/
theorem histogram_sum_invariant_witness :
    ((List.replicate 501 0).set 100 1).sum = 1 ∧ (1 : Nat) ≤ 1 := by
  have h : processRecords 500 ([(⟨0, 0, 100, 0x43⟩ : Record)].take 1) =
      some ⟨(List.replicate 501 0).set 100 1, 1, 100, 1, 100⟩ := by decide
  exact histogram_sum_invariant 500 [⟨0, 0, 100, 0x43⟩] 1 _ h

/-- A little-endian encoding has the requested width. -/
lemma leBytes_length : ∀ (len n : Nat), (leBytes len n).length = len
  | 0, _ => rfl
  | len + 1, n => by simp [leBytes, leBytes_length len (n / 256)]

/-- Decoding a little-endian encoding recovers the value modulo the width. -/
lemma leVal_leBytes : ∀ (len n : Nat), leVal (leBytes len n) = n % 256 ^ len
  | 0, n => by simp [leBytes, leVal, Nat.mod_one]
  | len + 1, n => by
    show n % 256 + 256 * leVal (leBytes len (n / 256)) = n % 256 ^ (len + 1)
    rw [leVal_leBytes len (n / 256), pow_succ', Nat.mod_mul]

/-- Reading exactly the length of a known prefix returns that prefix and the
tail. -/
lemma readExact_append (bs rest : List Nat) :
    readExact bs.length (bs ++ rest) = .ok (bs, rest) := by
  unfold readExact
  rw [if_pos (by simp), List.take_left, List.drop_left]

/-- Reading a `u32` at an encoded value returns it. -/
lemma readU32_append {n : Nat} (h : n < 2 ^ 32) (rest : List Nat) :
    readU32 (leBytes 4 n ++ rest) = .ok (n, rest) := by
  have hv : leVal (leBytes 4 n) = n := by
    rw [leVal_leBytes]
    exact Nat.mod_eq_of_lt (by norm_num at h ⊢; omega)
  have h4 : readExact 4 (leBytes 4 n ++ rest) = .ok (leBytes 4 n, rest) := by
    have hr := readExact_append (leBytes 4 n) rest
    rwa [leBytes_length] at hr
  unfold readU32
  rw [h4]
  simp [Except.map, hv]

/-- Skipping exactly the length of a known prefix drops it. -/
lemma skip_append {n : Nat} {bs : List Nat} (h : bs.length = n) (rest : List Nat) :
    skip n (bs ++ rest) = .ok rest := by
  subst h
  unfold skip
  rw [readExact_append]
  rfl

/-- Skipping the encoded reference dictionary consumes exactly its bytes:
each entry is its `u32` length prefix plus `l + 4` content bytes. -/
lemma skipRefs_enc : ∀ (entries : List (Nat × List Nat)) (rest : List Nat),
    (∀ e ∈ entries, e.1 < 2 ^ 32 ∧ e.2.length = e.1 + 4) →
    skipRefs entries.length ((entries.map encRefEntry).flatten ++ rest) = .ok rest := by
  intro entries
  induction entries with
  | nil => intro rest _; simp [skipRefs]
  | cons e es ih =>
    intro rest h
    obtain ⟨he1, he2⟩ := h e (List.mem_cons_self e es)
    have hrec := ih rest (fun x hx => h x (List.mem_cons_of_mem e hx))
    simp only [List.map_cons, List.flatten_cons, List.length_cons]
    unfold skipRefs
    simp only [bind, Except.bind, encRefEntry, List.append_assoc]
    rw [readU32_append he1]
    dsimp only
    rw [skip_append he2]
    exact hrec

/-- C7: opening the container fails with `BadMagic` whenever the first four
bytes differ from `BAM\1`; with the right magic it skips the header text
and every length-prefixed dictionary entry (its `u32` name length `l` plus
`l + 4` bytes) and returns the stream at the first alignment record. -/
theorem from_path_parses (m text : List Nat) (entries : List (Nat × List Nat))
    (rest : List Nat) (hm : m.length = 4) (htext : text.length < 2 ^ 31)
    (hentries : ∀ e ∈ entries, e.1 < 2 ^ 32 ∧ e.2.length = e.1 + 4)
    (hn : entries.length < 2 ^ 32) :
    (m ≠ [66, 65, 77, 1] →
      from_path (m ++ encHeaderTail text entries ++ rest) = .error .badMagic) ∧
    (m = [66, 65, 77, 1] →
      from_path (m ++ encHeaderTail text entries ++ rest) = .ok rest) := by
  have hassoc : m ++ encHeaderTail text entries ++ rest =
      m ++ (encHeaderTail text entries ++ rest) := List.append_assoc m _ rest
  have hEx : readExact 4 (m ++ (encHeaderTail text entries ++ rest)) =
      .ok (m, encHeaderTail text entries ++ rest) := by
    rw [show (4 : Nat) = m.length from hm.symm]
    exact readExact_append m _
  have hsplit : encHeaderTail text entries ++ rest =
      leBytes 4 text.length ++ (text ++ (leBytes 4 entries.length ++
        ((entries.map encRefEntry).flatten ++ rest))) := by
    simp [encHeaderTail, List.append_assoc]
  have hI : readI32 (encHeaderTail text entries ++ rest) =
      .ok ((text.length : Int), text ++ (leBytes 4 entries.length ++
        ((entries.map encRefEntry).flatten ++ rest))) := by
    rw [hsplit]
    unfold readI32
    rw [readU32_append (by omega) _]
    dsimp only [Except.map]
    unfold toI32
    rw [if_pos htext]
  have hUsize : intAsUsize ((text.length : Int)) = text.length := by
    unfold intAsUsize
    omega
  have hSkipText : skip text.length (text ++ (leBytes 4 entries.length ++
      ((entries.map encRefEntry).flatten ++ rest))) =
      .ok (leBytes 4 entries.length ++ ((entries.map encRefEntry).flatten ++ rest)) :=
    skip_append rfl _
  have hU32n : readU32 (leBytes 4 entries.length ++
      ((entries.map encRefEntry).flatten ++ rest)) =
      .ok (entries.length, (entries.map encRefEntry).flatten ++ rest) :=
    readU32_append hn _
  constructor
  · intro hne
    rw [hassoc]
    unfold from_path
    simp only [bind, Except.bind]
    rw [hEx]
    dsimp only
    rw [if_pos hne]
  · intro heq
    rw [hassoc]
    unfold from_path
    simp only [bind, Except.bind]
    rw [hEx]
    dsimp only
    rw [if_neg (by simp [heq])]
    rw [hI]
    dsimp only
    rw [hUsize, hSkipText]
    dsimp only
    rw [hU32n]
    dsimp only
    exact skipRefs_enc entries rest hentries

/-- Witness for `from_path_parses`: the concrete synthetic header parses and
leaves the trailing bytes; a wrong magic byte is rejected. -/
theorem from_path_parses_witness :
    from_path ([66, 65, 77, 1] ++ encHeaderTail [] [(2, [97, 0, 100, 0, 0, 0])] ++ [9, 9]) =
      .ok [9, 9] ∧
    from_path ([66, 65, 77, 2] ++ encHeaderTail [] [] ++ []) = .error .badMagic := by
  constructor
  · exact (from_path_parses [66, 65, 77, 1] [] [(2, [97, 0, 100, 0, 0, 0])] [9, 9]
      rfl (by decide) (by decide) (by decide)).2 rfl
  · exact (from_path_parses [66, 65, 77, 2] [] [] []
      rfl (by decide) (by decide) (by decide)).1 (by decide)

/-- Once every quantile slot is consumed, the pass leaves the slots
untouched. -/
lemma qref_of_le {qs : List (Nat × Nat)} {i : Nat} (h : ¬ i < qs.length) :
    ∀ (bs : List Nat) (n acc : Nat), qref bs n acc qs i = qs
  | [], _, _ => rfl
  | v :: bs, n, acc => by simp [qref, h]

/-- One finalizing step when the flag is up and the threshold is strictly
exceeded: record the bin index, advance the slot index, refresh the flag. -/
lemma scanStep_hit (mean : ℚ) (st : ScanState) (n v : Nat) (hft : st.flag = true)
    (hlt : (st.quantiles.getD st.ri (0, 0)).1 < st.accum + v) :
    scanStep mean st (n, v) =
      ⟨st.quantiles.set st.ri ((st.quantiles.getD st.ri (0, 0)).1, n), st.ri + 1,
        decide (st.ri + 1 < st.quantiles.length), st.accum + v,
        st.std + ((n : ℚ) - mean) ^ 2, Nat.max v st.height_max⟩ := by
  unfold scanStep
  dsimp only
  rw [hft]
  rw [if_pos rfl, if_pos hlt]
  dsimp only
  rw [List.length_set, if_pos rfl]

/-- One finalizing step when the flag is up but the threshold is not
exceeded: only the cumulative count, deviation sum and height move. -/
lemma scanStep_miss (mean : ℚ) (st : ScanState) (n v : Nat) (hft : st.flag = true)
    (hlt : ¬ (st.quantiles.getD st.ri (0, 0)).1 < st.accum + v) :
    scanStep mean st (n, v) =
      ⟨st.quantiles, st.ri, decide (st.ri < st.quantiles.length), st.accum + v,
        st.std + ((n : ℚ) - mean) ^ 2, Nat.max v st.height_max⟩ := by
  unfold scanStep
  dsimp only
  rw [hft]
  rw [if_pos rfl, if_neg hlt]
  dsimp only
  rw [if_pos rfl]

/-- One finalizing step when the flag is down: the quantile state is
frozen. -/
lemma scanStep_frozen (mean : ℚ) (st : ScanState) (n v : Nat) (hff : st.flag = false) :
    scanStep mean st (n, v) =
      ⟨st.quantiles, st.ri, st.flag, st.accum + v,
        st.std + ((n : ℚ) - mean) ^ 2, Nat.max v st.height_max⟩ := by
  unfold scanStep
  dsimp only
  rw [hff]
  rw [if_neg (by simp), if_neg (by simp)]

/-- The quantile component of the finalizing fold is the reference recursion
`qref`, provided the flag agrees with `ri` being in range. -/
lemma foldl_scanStep_quantiles (mean : ℚ) :
    ∀ (bins : List Nat) (n : Nat) (st : ScanState),
      st.flag = decide (st.ri < st.quantiles.length) →
      (List.foldl (scanStep mean) st (List.enumFrom n bins)).quantiles =
        qref bins n st.accum st.quantiles st.ri := by
  intro bins
  induction bins with
  | nil => intro n st _; rfl
  | cons v bs ih =>
    intro n st hflag
    show (List.foldl (scanStep mean) (scanStep mean st (n, v))
      (List.enumFrom (n + 1) bs)).quantiles = qref (v :: bs) n st.accum st.quantiles st.ri
    by_cases hi : st.ri < st.quantiles.length
    · have hft : st.flag = true := by rw [hflag]; simp [hi]
      by_cases hlt : (st.quantiles.getD st.ri (0, 0)).1 < st.accum + v
      · rw [scanStep_hit mean st n v hft hlt, ih (n + 1) _ (by simp [List.length_set])]
        simp only [qref]
        rw [if_pos hi, if_pos hlt]
      · rw [scanStep_miss mean st n v hft hlt, ih (n + 1) _ (by simp)]
        simp only [qref]
        rw [if_pos hi, if_neg hlt]
    · have hff : st.flag = false := by rw [hflag]; simp [hi]
      rw [scanStep_frozen mean st n v hff, ih (n + 1) _ (by simp [hff, hi])]
      rw [qref_of_le hi, qref_of_le hi]

/-- When the specification search misses, the reference pass leaves the
slots unchanged from the pending one on. -/
lemma qref_specFind_none {t : Nat} : ∀ (bs : List Nat) (n acc : Nat)
    (qs : List (Nat × Nat)) (i : Nat), i < qs.length → (qs.getD i (0, 0)).1 = t →
    specFind bs n acc t = none → qref bs n acc qs i = qs := by
  intro bs
  induction bs with
  | nil => intro n acc qs i _ _ _; rfl
  | cons v bs ih =>
    intro n acc qs i hi ht hf
    unfold specFind at hf
    split at hf
    · cases hf
    · rename_i hnlt
      simp only [qref]
      rw [if_pos hi, ht, if_neg hnlt]
      exact ih (n + 1) (acc + v) qs i hi ht hf

/-- When the specification search hits, the reference pass records the found
index in the pending slot and continues after it with the next slot. -/
lemma qref_specFind_some {t : Nat} : ∀ (bs : List Nat) (n acc : Nat)
    (qs : List (Nat × Nat)) (i k a : Nat) (rest : List Nat),
    i < qs.length → (qs.getD i (0, 0)).1 = t →
    specFind bs n acc t = some (k, a, rest) →
    qref bs n acc qs i = qref rest (k + 1) a (qs.set i (t, k)) (i + 1) := by
  intro bs
  induction bs with
  | nil => intro n acc qs i k a rest _ _ hf; cases hf
  | cons v bs ih =>
    intro n acc qs i k a rest hi ht hf
    unfold specFind at hf
    split at hf
    · rename_i hlt
      cases hf
      simp only [qref]
      rw [if_pos hi, ht, if_pos hlt]
    · rename_i hnlt
      simp only [qref]
      rw [if_pos hi, ht, if_neg hnlt]
      exact ih (n + 1) (acc + v) qs i k a rest hi ht hf

/-- The specification search never finds an index before its start. -/
lemma specFind_le : ∀ (bs : List Nat) (n acc t k a : Nat) (rest : List Nat),
    specFind bs n acc t = some (k, a, rest) → n ≤ k := by
  intro bs
  induction bs with
  | nil => intro n acc t k a rest hf; cases hf
  | cons v bs ih =>
    intro n acc t k a rest hf
    unfold specFind at hf
    split at hf
    · cases hf; exact Nat.le_refl n
    · exact Nat.le_of_succ_le (ih (n + 1) (acc + v) t k a rest hf)

/-- Fully chained: starting from the initial thresholds, the reference pass
computes exactly the specification search results, with unmatched slots
left at 0. -/
lemma qref_top (data : List Nat) (c : Nat) :
    qref data 0 0 (quantInit c) 0 =
      [(c / 4, (specQuantilesOpt data c).1.getD 0),
       (c / 2, (specQuantilesOpt data c).2.1.getD 0),
       (c * 3 / 4, (specQuantilesOpt data c).2.2.getD 0)] := by
  rcases h1 : specFind data 0 0 (c / 4) with _ | ⟨k1, a1, rest1⟩
  · have hr : qref data 0 0 (quantInit c) 0 = quantInit c :=
      qref_specFind_none data 0 0 (quantInit c) 0 (by simp [quantInit]) rfl h1
    rw [hr]
    simp only [specQuantilesOpt, h1]
    rfl
  · have e1 : qref data 0 0 (quantInit c) 0 =
        qref rest1 (k1 + 1) a1 [(c / 4, k1), (c / 2, 0), (c * 3 / 4, 0)] 1 :=
      qref_specFind_some data 0 0 (quantInit c) 0 k1 a1 rest1 (by simp [quantInit]) rfl h1
    rcases h2 : specFind rest1 (k1 + 1) a1 (c / 2) with _ | ⟨k2, a2, rest2⟩
    · have hr : qref rest1 (k1 + 1) a1 [(c / 4, k1), (c / 2, 0), (c * 3 / 4, 0)] 1 =
          [(c / 4, k1), (c / 2, 0), (c * 3 / 4, 0)] :=
        qref_specFind_none rest1 (k1 + 1) a1 _ 1 (by simp) rfl h2
      rw [e1, hr]
      simp only [specQuantilesOpt, h1, h2]
      rfl
    · have e2 : qref rest1 (k1 + 1) a1 [(c / 4, k1), (c / 2, 0), (c * 3 / 4, 0)] 1 =
          qref rest2 (k2 + 1) a2 [(c / 4, k1), (c / 2, k2), (c * 3 / 4, 0)] 2 :=
        qref_specFind_some rest1 (k1 + 1) a1 _ 1 k2 a2 rest2 (by simp) rfl h2
      rcases h3 : specFind rest2 (k2 + 1) a2 (c * 3 / 4) with _ | ⟨k3, a3, rest3⟩
      · have hr : qref rest2 (k2 + 1) a2 [(c / 4, k1), (c / 2, k2), (c * 3 / 4, 0)] 2 =
            [(c / 4, k1), (c / 2, k2), (c * 3 / 4, 0)] :=
          qref_specFind_none rest2 (k2 + 1) a2 _ 2 (by simp) rfl h3
        rw [e1, e2, hr]
        simp only [specQuantilesOpt, h1, h2, h3]
        rfl
      · have e3 : qref rest2 (k2 + 1) a2 [(c / 4, k1), (c / 2, k2), (c * 3 / 4, 0)] 2 =
            qref rest3 (k3 + 1) a3 [(c / 4, k1), (c / 2, k2), (c * 3 / 4, k3)] 3 :=
          qref_specFind_some rest2 (k2 + 1) a2 _ 2 k3 a3 rest3 (by simp) rfl h3
        have hr : qref rest3 (k3 + 1) a3 [(c / 4, k1), (c / 2, k2), (c * 3 / 4, k3)] 3 =
            [(c / 4, k1), (c / 2, k2), (c * 3 / 4, k3)] :=
          qref_of_le (by simp) rest3 (k3 + 1) a3
        rw [e1, e2, e3, hr]
        simp only [specQuantilesOpt, h1, h2, h3]
        rfl

/-- The quantile cut points read off by `finalizeSummary` are exactly the
specification's chained first-excess search. -/
lemma finalizeSummary_quantiles (agg : Aggregates) :
    (finalizeSummary agg).q1 = (specQuantiles agg.data agg.count).1 ∧
    (finalizeSummary agg).q2 = (specQuantiles agg.data agg.count).2.1 ∧
    (finalizeSummary agg).q3 = (specQuantiles agg.data agg.count).2.2 := by
  have hq : (finalizeScan agg.data agg.count ((agg.mean : ℚ) / (agg.count : ℚ))).quantiles =
      qref agg.data 0 0 (quantInit agg.count) 0 := by
    have hfold := foldl_scanStep_quantiles ((agg.mean : ℚ) / (agg.count : ℚ)) agg.data 0
      ⟨quantInit agg.count, 0, true, 0, 0, 0⟩ (by rfl)
    simpa [finalizeScan, List.enum] using hfold
  refine ⟨?_, ?_, ?_⟩ <;>
    (unfold finalizeSummary; dsimp only; rw [hq, qref_top]; rfl)

/-- C5: the three quantile cut points reported after the pass equal the
specification rule: thresholds `floor(count/4)`, `floor(count/2)`,
`floor(3*count/4)` consumed strictly in order, each matched by the first
bin, strictly after the previous match, whose running cumulative count
strictly exceeds it, and left 0 once the pass can no longer match. -/
theorem quantile_cut_points (agg : Aggregates) :
    ((finalizeSummary agg).q1, (finalizeSummary agg).q2, (finalizeSummary agg).q3) =
      specQuantiles agg.data agg.count := by
  obtain ⟨h1, h2, h3⟩ := finalizeSummary_quantiles agg
  rw [h1, h2, h3]

/-- Counterexample to C9 as stated: scanning four pairs of insert size 1
with `upper = 1` puts the whole mass in the last bin; the first threshold is
matched there, the later two never are, so the reported cut points are
`q1 = 1 > q2 = 0`. -/
theorem quantiles_not_monotone :
    (cli 1 qInput).map (fun o => (o.q1, o.q2, o.q3)) = .ok (1, 0, 0) ∧ ¬ (1 ≤ 0) := by
  exact ⟨by decide, by decide⟩

/-- C9 (amended): whenever all three thresholds are matched during the
pass, the reported quantile cut points are non-decreasing (indeed strictly
increasing); an unmatched threshold leaves its cut point at 0, which can
fall below an earlier one. -/
theorem quantiles_monotone_when_matched (agg : Aggregates) (k1 k2 k3 : Nat)
    (h : specQuantilesOpt agg.data agg.count = (some k1, some k2, some k3)) :
    (finalizeSummary agg).q1 ≤ (finalizeSummary agg).q2 ∧
    (finalizeSummary agg).q2 ≤ (finalizeSummary agg).q3 := by
  obtain ⟨hq1, hq2, hq3⟩ := finalizeSummary_quantiles agg
  have hord : k1 < k2 ∧ k2 < k3 := by
    rcases e1 : specFind agg.data 0 0 (agg.count / 4) with _ | ⟨j1, b1, r1⟩
    · simp [specQuantilesOpt, e1, Prod.ext_iff] at h
    rcases e2 : specFind r1 (j1 + 1) b1 (agg.count / 2) with _ | ⟨j2, b2, r2⟩
    · simp [specQuantilesOpt, e1, e2, Prod.ext_iff] at h
    rcases e3 : specFind r2 (j2 + 1) b2 (agg.count * 3 / 4) with _ | ⟨j3, b3, r3⟩
    · simp [specQuantilesOpt, e1, e2, e3, Prod.ext_iff] at h
    have hj2 := specFind_le r1 (j1 + 1) b1 (agg.count / 2) j2 b2 r2 e2
    have hj3 := specFind_le r2 (j2 + 1) b2 (agg.count * 3 / 4) j3 b3 r3 e3
    simp only [specQuantilesOpt, e1, e2, e3, Prod.mk.injEq, Option.some.injEq] at h
    omega
  rw [hq1, hq2, hq3]
  unfold specQuantiles
  rw [h]
  dsimp only
  simp only [Option.getD_some]
  omega

/-- Witness for `quantiles_monotone_when_matched`: histogram `[2, 1, 1]`
with count 4 matches all three thresholds and yields ordered cut points. -/
theorem quantiles_monotone_when_matched_witness :
    (finalizeSummary ⟨[2, 1, 1], 0, 0, 4, 0⟩).q1 ≤
        (finalizeSummary ⟨[2, 1, 1], 0, 0, 4, 0⟩).q2 ∧
      (finalizeSummary ⟨[2, 1, 1], 0, 0, 4, 0⟩).q2 ≤
        (finalizeSummary ⟨[2, 1, 1], 0, 0, 4, 0⟩).q3 :=
  quantiles_monotone_when_matched ⟨[2, 1, 1], 0, 0, 4, 0⟩ 0 1 2 (by decide)

/-- C8: the synthetic three-record container (flags `0x43`, equal reference
ids, template lengths 100, 200, 300) scanned with `upper = 500` yields both
counts 3, both means 200, unit bins at 100, 200, 300 with every other bin
zero, and second quantile cut point 200. -/
theorem round_trip_stats :
    (cli 500 rtInput).map RunOut.all_count = .ok 3 ∧
    (cli 500 rtInput).map RunOut.count = .ok 3 ∧
    (cli 500 rtInput).map RunOut.all_mean = .ok 200 ∧
    (cli 500 rtInput).map RunOut.mean = .ok 200 ∧
    (cli 500 rtInput).map RunOut.data =
      .ok ((((List.replicate 501 0).set 100 1).set 200 1).set 300 1) ∧
    (cli 500 rtInput).map RunOut.q2 = .ok 200 := by
  have hac : (cliAgg 500 rtInput).map Aggregates.all_count = .ok 3 := by decide
  have hc : (cliAgg 500 rtInput).map Aggregates.count = .ok 3 := by decide
  have ham : (cliAgg 500 rtInput).map Aggregates.all_mean = .ok 600 := by decide
  have hm : (cliAgg 500 rtInput).map Aggregates.mean = .ok 600 := by decide
  have hd : (cliAgg 500 rtInput).map Aggregates.data =
      .ok ((((List.replicate 501 0).set 100 1).set 200 1).set 300 1) := by decide
  rcases hagg : cliAgg 500 rtInput with e | a
  · rw [hagg] at hac
    simp [Except.map] at hac
  rw [hagg] at hac hc ham hm hd
  simp only [Except.map, Except.ok.injEq] at hac hc ham hm hd
  unfold cli
  rw [hagg]
  simp only [Except.map, Except.ok.injEq]
  refine ⟨?_, ?_, ?_, ?_, ?_, ?_⟩
  · rw [show (finalizeSummary a).all_count = a.all_count from rfl, hac]
  · rw [show (finalizeSummary a).count = a.count from rfl, hc]
  · rw [show (finalizeSummary a).all_mean = (a.all_mean : ℚ) / (a.all_count : ℚ) from rfl,
      ham, hac]
    norm_num
  · rw [show (finalizeSummary a).mean = (a.mean : ℚ) / (a.count : ℚ) from rfl, hm, hc]
    norm_num
  · rw [show (finalizeSummary a).data = a.data from rfl, hd]
  · rw [(finalizeSummary_quantiles a).2.1, hd, hc]
    decide

/-- C1 (code side): on the single-record input with insert size 0 and
`upper = 1` the program's standard-deviation radicand is 1 — every bin
index contributes `(k - mean)^2` whether or not its bin is occupied — while
the specification's histogram-weighted formula gives 0, so the reported
standard deviation `sqrt(1) = 1` differs from the specified `sqrt(0) = 0`. -/
theorem std_formula_bug :
    (cli 1 sdInput).map RunOut.std_sq = .ok 1 ∧
    (cli 1 sdInput).map (fun o => specStdSq o.data o.count o.mean) = .ok 0 ∧
    (1 : ℚ) ≠ 0 := by
  have hagg : cliAgg 1 sdInput = .ok ⟨[1, 0], 1, 0, 1, 0⟩ := by decide
  unfold cli
  rw [hagg]
  simp only [Except.map, Except.ok.injEq]
  refine ⟨?_, ?_, by norm_num⟩
  · norm_num [finalizeSummary, finalizeScan, scanStep, quantInit, List.enum,
      List.enumFrom, List.foldl]
  · norm_num [finalizeSummary, finalizeScan, scanStep, quantInit, specStdSq,
      List.enum, List.enumFrom, List.foldl]

end InsertSizePlot
